import Mathlib

/-!
Verification development for the tile-grid collision-boundary extraction in
`engine/prefabs/components.h` (`LevelService`): edge collection from a raster
occupancy grid, loop walking that consumes edges, winding resolution by
point-sampling, and geometry emission.

The C++ is embedded shallowly:
* `ldtk::IntPoint` becomes `IntPoint` (machine `int` becomes `ℤ`; the grids
  involved are far from overflow).
* `std::unordered_set<Edge>` / `std::unordered_map<IntPoint, vector>` become
  duplicate-free `List`s; the C++ iteration order of the hash containers is
  unspecified, the list model fixes it to insertion order (the row-major,
  up/down/left/right collection order, which is also the order the spec's
  tie-break discussion assumes).
* `float` arithmetic in the winding probe becomes exact `ℚ` arithmetic;
  for the unit-length axis-aligned edges the walker produces, the float
  computation is exact, and the probe point lands at distance 1/4 from every
  cell border, so rounding cannot change the resulting cell.
* the two C++ `while` loops become fuelled structural recursion; each
  iteration of either loop removes one edge from the working edge set, so
  fuel equal to the size of the edge set makes the fuel bound unreachable.
-/

/-- Mirror of `ldtk::IntPoint`: an integer grid-corner coordinate. -/
structure IntPoint where
  x : Int
  y : Int
deriving DecidableEq, Repr

/-- Mirror of the `Edge` struct: an undirected unit boundary segment, stored
canonically (lexicographically smaller endpoint in `a`). -/
structure Edge where
  a : IntPoint
  b : IntPoint
deriving DecidableEq, Repr

/-- Mirror of the `make_edge` lambda in `LevelService::init`: canonicalises the
endpoint order (swap when `p1 < p0` lexicographically by `x` then `y`). -/
def make_edge (p0 p1 : IntPoint) : Edge :=
  if p1.x < p0.x ∨ (p1.x = p0.x ∧ p1.y < p0.y) then ⟨p1, p0⟩ else ⟨p0, p1⟩

/-- The data of one LDtk layer that the extraction reads: its grid size in
cells (`getGridSize`), its cell size in pixels (`getCellSize`), and the
IntGrid tag name of each cell (`getIntGridVal(x, y).name`). The tag function
is total; the code only consults it inside the grid bounds. -/
structure Layer where
  size : IntPoint
  cell_size : Int
  tag_name : Int → Int → String

/-- Mirror of `LevelService::is_solid`: out-of-bounds cells are not solid;
in-bounds cells are solid exactly when their tag name occurs in the
caller-supplied collision-name list (`std::find` over the list). -/
def is_solid (cn : List String) (L : Layer) (x y : Int) : Bool :=
  if x < 0 ∨ y < 0 ∨ x ≥ L.size.x ∨ y ≥ L.size.y then
    false
  else
    decide (L.tag_name x y ∈ cn)

/-- Insertion into the modelled `std::unordered_set<Edge>`: a no-op when the
edge is already present, otherwise recorded (at the end, fixing insertion
order as the model's iteration order). -/
def insert_edge (es : List Edge) (e : Edge) : List Edge :=
  if e ∈ es then es else es ++ [e]

/-- Boundary-edge emission for one solid cell, in the order of the four
neighbour tests in `LevelService::init`: up `(x, y-1)`, down `(x, y+1)`,
left `(x-1, y)`, right `(x+1, y)`; each non-solid neighbour contributes the
unit edge between the two grid corners bounding that side. -/
def cell_edges (cn : List String) (L : Layer) (x y : Int) (es : List Edge) : List Edge :=
  if is_solid cn L x y then
    let es1 := if is_solid cn L x (y - 1) then es else
      insert_edge es (make_edge ⟨x, y⟩ ⟨x + 1, y⟩)
    let es2 := if is_solid cn L x (y + 1) then es1 else
      insert_edge es1 (make_edge ⟨x, y + 1⟩ ⟨x + 1, y + 1⟩)
    let es3 := if is_solid cn L (x - 1) y then es2 else
      insert_edge es2 (make_edge ⟨x, y⟩ ⟨x, y + 1⟩)
    if is_solid cn L (x + 1) y then es3 else
      insert_edge es3 (make_edge ⟨x + 1, y⟩ ⟨x + 1, y + 1⟩)
  else es

/-- Mirror of the collection scan in `LevelService::init`: row-major over the
grid (`y` outer, `x` inner), accumulating boundary edges. -/
def collect_edges (cn : List String) (L : Layer) : List Edge :=
  (List.range L.size.y.toNat).foldl
    (fun es y =>
      (List.range L.size.x.toNat).foldl
        (fun es x => cell_edges cn L (Int.ofNat x) (Int.ofNat y) es) es)
    []

/-- Mirror of the adjacency map `adj`: for each collected edge `(a, b)`, `b`
is recorded as a neighbour of `a` and `a` as a neighbour of `b`, in edge
iteration order. Built once from the full edge list and never mutated. -/
def adj_of (es : List Edge) (p : IntPoint) : List IntPoint :=
  es.foldl
    (fun acc e =>
      let acc1 := if e.a = p then acc ++ [e.b] else acc
      if e.b = p then acc1 ++ [e.a] else acc1)
    []

/-- Mirror of the `erase_edge` lambda: removes the canonical form of the
undirected edge `(p0, p1)` from the working edge set. -/
def erase_edge (es : List Edge) (p0 p1 : IntPoint) : List Edge :=
  es.filter (fun e => decide (e ≠ make_edge p0 p1))

/-- Exact square root on `ℚ`, the model of `std::sqrt`: exact on squares of
rationals (the only values the probe computation meets: the edges the walker
hands to winding resolution are unit-length and axis-aligned, where the float
square root is likewise exact). -/
def ratSqrt (q : ℚ) : ℚ :=
  (Int.sqrt (q.num * (q.den : Int)) : ℚ) / (q.den : ℚ)

/-- Body of the edge-probing loop of `LevelService::loop_has_solid_on_right`,
over the cyclic list of corner pairs `(loop[i], loop[(i+1) % n])`: skip
zero-length edges, otherwise scale to pixel coordinates, normalise the edge
direction, take the rightward normal `(-ey, ex)`, sample a quarter cell-width
from the edge midpoint along it, floor-divide back to a grid cell and ask
`is_solid` there. Falls through to `false` when every edge is degenerate. -/
def solid_on_right_aux (cn : List String) (L : Layer) (scale : ℚ) :
    List (IntPoint × IntPoint) → Bool
  | [] => false
  | (a, b) :: rest =>
    let dx : Int := b.x - a.x
    let dy : Int := b.y - a.y
    if dx = 0 ∧ dy = 0 then solid_on_right_aux cn L scale rest
    else
      let cs : ℚ := (L.cell_size : ℚ)
      let ax := (a.x : ℚ) * cs * scale
      let ay := (a.y : ℚ) * cs * scale
      let bx := (b.x : ℚ) * cs * scale
      let qby := (b.y : ℚ) * cs * scale
      let ex := bx - ax
      let ey := qby - ay
      let len := ratSqrt (ex * ex + ey * ey)
      if len < 1 / 10000 then solid_on_right_aux cn L scale rest
      else
        let ux := ex / len
        let uy := ey / len
        let rx := -uy
        let ry := ux
        let mx := (ax + bx) / 2
        let my := (ay + qby) / 2
        let eps := cs * scale / 4
        let sx := mx + rx * eps
        let sy := my + ry * eps
        let gx := ⌊sx / (cs * scale)⌋
        let gy := ⌊sy / (cs * scale)⌋
        is_solid cn L gx gy

/-- Mirror of `LevelService::loop_has_solid_on_right`: probe along the first
non-degenerate edge of the cyclic corner sequence. -/
def loop_has_solid_on_right (cn : List String) (L : Layer) (scale : ℚ)
    (loop_corners : List IntPoint) : Bool :=
  solid_on_right_aux cn L scale (loop_corners.zip (loop_corners.rotate 1))

/-- The walking loop's candidate test: not the vertex we just came from, and
the edge from `cur` to it is still in the working edge set. -/
def next_ok (prev cur : IntPoint) (es : List Edge) (cand : IntPoint) : Bool :=
  decide (cand ≠ prev) && decide (make_edge cur cand ∈ es)

/-- Mirror of the inner `while (!(cur == start))` walking loop: pick the first
neighbour of `cur` (in adjacency order) that is not `prev` and whose edge to
`cur` is still unconsumed; consume that edge and append the neighbour, break
out once the chain holds more than 100000 vertices. Fuel stands in for the
loop's termination: every iteration removes one edge from `es`, so any fuel
of at least `es.length` behaves as the unbounded loop. Returns the chain and
the remaining edge set. -/
def walk (adj : IntPoint → List IntPoint) (fuel : Nat) (es : List Edge)
    (start cur prev : IntPoint) (poly : List IntPoint) :
    List IntPoint × List Edge :=
  if cur = start then (poly, es)
  else
    match (adj cur).find? (next_ok prev cur es) with
    | none => (poly, es)
    | some next =>
      let es1 := erase_edge es cur next
      let poly1 := poly ++ [next]
      if poly1.length > 100000 then (poly1, es1)
      else
        match fuel with
        | 0 => (poly1, es1)
        | fuel' + 1 => walk adj fuel' es1 start next cur poly1

/-- Mirror of `if (!poly.empty() && poly.back() == poly.front()) poly.pop_back()`. -/
def trim_loop (poly : List IntPoint) : List IntPoint :=
  if poly ≠ [] ∧ poly.getLast? = poly.head? then poly.dropLast else poly

/-- Mirror of the winding fix applied to each kept chain: reverse the vertex
order unless solid material already lies on the right of the traversal. -/
def fix_winding (cn : List String) (L : Layer) (scale : ℚ)
    (poly : List IntPoint) : List IntPoint :=
  if loop_has_solid_on_right cn L scale poly then poly else poly.reverse

/-- Mirror of the outer `while (!edges.empty())` selection loop: take the
first remaining edge `(a, b)`, consume it, walk from it, trim the duplicated
closing vertex, and keep the chain (winding-fixed) when it still has at least
3 vertices. Fuel stands in for termination: every collected edge is
`make_edge`-canonical, so the selection step always removes the head edge and
fuel `es.length` behaves as the unbounded loop. -/
def walk_loops (cn : List String) (L : Layer) (scale : ℚ)
    (adj : IntPoint → List IntPoint) :
    Nat → List Edge → List (List IntPoint) → List (List IntPoint)
  | 0, _, loops => loops
  | _ + 1, [], loops => loops
  | fuel + 1, e :: rest, loops =>
    let es1 := erase_edge (e :: rest) e.a e.b
    let r := walk adj es1.length es1 e.a e.b e.a [e.a, e.b]
    let poly := trim_loop r.1
    let loops1 :=
      if 3 ≤ poly.length then loops ++ [fix_winding cn L scale poly] else loops
    walk_loops cn L scale adj fuel r.2 loops1

/-- The per-layer extraction: collect the boundary edges, build the adjacency
index from them, and walk all loops. Result: the layer's loops in emission
order, winding already fixed. -/
def layer_loops (cn : List String) (L : Layer) (scale : ℚ) :
    List (List IntPoint) :=
  let es := collect_edges cn L
  walk_loops cn L scale (adj_of es) es.length es []

/-- Mirror of `b2SurfaceMaterial` (the two fields the code sets). -/
structure SurfaceMaterial where
  friction : ℚ
  restitution : ℚ
deriving DecidableEq, Repr

/-- Mirror of `b2DefaultSurfaceMaterial()`: Box2D's defaults. -/
def b2DefaultSurfaceMaterial : SurfaceMaterial :=
  { friction := 6 / 10, restitution := 0 }

/-- Mirror of `PhysicsService::convert_to_meters` at its default
`meters_to_pixels = 30`: multiplication by the fixed factor `1 / 30`. -/
def pixels_to_meters : ℚ := 1 / 30

/-- Conversion of a pixel-space point to physics meters. -/
def convert_to_meters (p : ℚ × ℚ) : ℚ × ℚ :=
  (p.1 * pixels_to_meters, p.2 * pixels_to_meters)

/-- Mirror of `b2ChainDef` as filled in by `LevelService::init`: the
world-space points, the per-vertex materials, and the loop flag. -/
structure ChainDef where
  points : List (ℚ × ℚ)
  materials : List SurfaceMaterial
  isLoop : Bool
deriving DecidableEq, Repr

/-- Per-loop geometry emission in `LevelService::init`: each grid corner is
scaled by `cell_size * scale` to pixels and converted to meters; one surface
material per vertex, friction and restitution both set to `0.1`. -/
def emit_chain (L : Layer) (scale : ℚ) (loop : List IntPoint) : ChainDef :=
  let verts := loop.map (fun p =>
    convert_to_meters
      ((p.x : ℚ) * (L.cell_size : ℚ) * scale, (p.y : ℚ) * (L.cell_size : ℚ) * scale))
  let mats := (List.range verts.length).map (fun _ =>
    { b2DefaultSurfaceMaterial with friction := 1 / 10, restitution := 1 / 10 })
  { points := verts, materials := mats, isLoop := true }

/-- The chains handed to `b2CreateChain` for one layer. -/
def emit_layer (cn : List String) (L : Layer) (scale : ℚ) : List ChainDef :=
  (layer_loops cn L scale).map (emit_chain L scale)

/-!  Derived notions used by the theorems. -/

/-- The four neighbour directions tested during collection, in source order. -/
inductive Dir
  | up
  | down
  | left
  | right
deriving DecidableEq, Repr

/-- Condition under which the scan of cell `(x, y)` inserts the edge of side
`d`: the cell is solid and the neighbour across that side is not. -/
def dir_cond (cn : List String) (L : Layer) (x y : Int) : Dir → Bool
  | .up => is_solid cn L x y && !is_solid cn L x (y - 1)
  | .down => is_solid cn L x y && !is_solid cn L x (y + 1)
  | .left => is_solid cn L x y && !is_solid cn L (x - 1) y
  | .right => is_solid cn L x y && !is_solid cn L (x + 1) y

/-- The boundary edge of side `d` of cell `(x, y)`, exactly as inserted by the
scan (these argument orders are already canonical). -/
def dir_edge (x y : Int) : Dir → Edge
  | .up => ⟨⟨x, y⟩, ⟨x + 1, y⟩⟩
  | .down => ⟨⟨x, y + 1⟩, ⟨x + 1, y + 1⟩⟩
  | .left => ⟨⟨x, y⟩, ⟨x, y + 1⟩⟩
  | .right => ⟨⟨x + 1, y⟩, ⟨x + 1, y + 1⟩⟩

/-- The four directions as a list, in scan order. -/
def all_dirs : List Dir := [.up, .down, .left, .right]

/-- One step of the per-cell scan, indexed by direction. -/
def dir_step (cn : List String) (L : Layer) (x y : Int)
    (es : List Edge) (d : Dir) : List Edge :=
  if dir_cond cn L x y d then insert_edge es (dir_edge x y d) else es

/-- The cells visited by the collection scan, in row-major scan order. -/
def scan_cells (L : Layer) : List (Int × Int) :=
  (List.range L.size.y.toNat).flatMap (fun y =>
    (List.range L.size.x.toNat).map (fun x => (Int.ofNat x, Int.ofNat y)))

/-- Number of boundary sides contributed by cell `(x, y)`: its solid sides
whose neighbour across is non-solid or out of range. -/
def cell_side_count (cn : List String) (L : Layer) (x y : Int) : Nat :=
  all_dirs.countP (fun d => dir_cond cn L x y d)

/-- Count, over the whole grid, of solid-cell sides whose axis-aligned
neighbour cell is non-solid or out of range. -/
def side_count (cn : List String) (L : Layer) : Nat :=
  ((scan_cells L).map (fun c => cell_side_count cn L c.1 c.2)).sum

/-- The two grid cells adjoining a unit edge: for a horizontal edge
`(u,v)-(u+1,v)` the cells `(u, v-1)` and `(u, v)`, for a vertical edge
`(u,v)-(u,v+1)` the cells `(u-1, v)` and `(u, v)`. -/
def edge_sides (e : Edge) : (Int × Int) × (Int × Int) :=
  if e.b.y = e.a.y then ((e.a.x, e.a.y - 1), (e.a.x, e.a.y))
  else ((e.a.x - 1, e.a.y), (e.a.x, e.a.y))

/-- Two grid corners one unit apart along an axis. -/
def unit_step (p q : IntPoint) : Prop :=
  (p.x - q.x).natAbs + (p.y - q.y).natAbs = 1

/-- An edge whose endpoints are adjacent grid corners. -/
def unit_edge (e : Edge) : Prop :=
  unit_step e.a e.b

/-- The canonical edges between consecutive vertices of a chain (no wrap). -/
def chain_edges : List IntPoint → List Edge
  | a :: b :: rest => make_edge a b :: chain_edges (b :: rest)
  | _ => []

/-- The canonical edges between consecutive vertices of a loop, wrapping from
the last vertex back to the first. -/
def loop_edges : List IntPoint → List Edge
  | [] => []
  | a :: rest => chain_edges ((a :: rest) ++ [a])

/-- Rendering of the spec's winding-probe rule (§4.5) for a unit axis-aligned
edge `a→b`, in grid units (the cell size and scale cancel under the final
floor division): the midpoint of the edge offset a quarter cell along the
rightward normal `(-dy, dx)`, floor-divided to a cell. Stated separately from
the source mirror `loop_has_solid_on_right` so the two can be compared. -/
def probe_cell_spec (a b : IntPoint) : IntPoint :=
  ⟨⌊((a.x : ℚ) + (b.x : ℚ)) / 2 + (-((b.y : ℚ) - (a.y : ℚ))) / 4⌋,
   ⌊((a.y : ℚ) + (b.y : ℚ)) / 2 + ((b.x : ℚ) - (a.x : ℚ)) / 4⌋⟩

/-!  Concrete example layers used to witness the theorems. -/

/-- Collision names for the examples. -/
def exCN : List String := ["solid"]

/-- A 3×3 grid whose cells are all solid: a 3×3 solid block surrounded by
the implicit empty out-of-range surround (spec §8, Scenario A). -/
def exL3 : Layer :=
  { size := ⟨3, 3⟩, cell_size := 16, tag_name := fun _ _ => "solid" }

/-- The loop the extraction emits for `exL3`: twelve unit steps around the
block's boundary, clockwise in screen coordinates, starting at the origin. -/
def ex3Loop : List IntPoint :=
  [⟨0, 0⟩, ⟨1, 0⟩, ⟨2, 0⟩, ⟨3, 0⟩, ⟨3, 1⟩, ⟨3, 2⟩,
   ⟨3, 3⟩, ⟨2, 3⟩, ⟨1, 3⟩, ⟨0, 3⟩, ⟨0, 2⟩, ⟨0, 1⟩]

/-!  Basic facts about `make_edge`. -/

lemma make_edge_comm (p q : IntPoint) : make_edge p q = make_edge q p := by
  cases p with
  | mk px py =>
    cases q with
    | mk qx qy =>
      simp only [make_edge]
      split_ifs <;> simp_all <;> omega

lemma make_edge_eq_or (p q : IntPoint) :
    make_edge p q = ⟨p, q⟩ ∨ make_edge p q = ⟨q, p⟩ := by
  unfold make_edge
  split_ifs <;> simp

/-- The endpoint set of `make_edge p q` is `p` and `q`. -/
lemma make_edge_endpoints (p q : IntPoint) :
    ((make_edge p q).a = p ∧ (make_edge p q).b = q) ∨
      ((make_edge p q).a = q ∧ (make_edge p q).b = p) := by
  rcases make_edge_eq_or p q with h | h <;> rw [h] <;> simp

/-- Canonical edges are fixed points of `make_edge`. -/
lemma make_edge_of_canonical (e : Edge)
    (h : e.a.x < e.b.x ∨ (e.a.x = e.b.x ∧ e.a.y ≤ e.b.y)) :
    make_edge e.a e.b = e := by
  unfold make_edge
  rw [if_neg]
  · omega

/-!  Characterisation of the collection scan. -/

lemma exists_dir (P : Dir → Prop) :
    (∃ d, P d) ↔ P .up ∨ P .down ∨ P .left ∨ P .right := by
  constructor
  · rintro ⟨d, h⟩
    cases d <;> tauto
  · rintro (h | h | h | h) <;> exact ⟨_, h⟩

lemma mem_insert_edge {es : List Edge} {e e' : Edge} :
    e' ∈ insert_edge es e ↔ e' ∈ es ∨ e' = e := by
  unfold insert_edge
  split_ifs with h
  · constructor
    · tauto
    · rintro (h' | rfl) <;> assumption
  · simp

lemma insert_edge_nodup {es : List Edge} {e : Edge} (h : es.Nodup) :
    (insert_edge es e).Nodup := by
  unfold insert_edge
  split_ifs with hmem
  · exact h
  · simpa [List.nodup_append] using ⟨h, fun h' => hmem h'⟩

lemma insert_edge_length_of_not_mem {es : List Edge} {e : Edge} (h : e ∉ es) :
    (insert_edge es e).length = es.length + 1 := by
  unfold insert_edge
  rw [if_neg h, List.length_append, List.length_singleton]

lemma insert_edge_length_of_mem {es : List Edge} {e : Edge} (h : e ∈ es) :
    (insert_edge es e).length = es.length := by
  unfold insert_edge
  rw [if_pos h]

lemma mem_all_dirs (d : Dir) : d ∈ all_dirs := by
  cases d <;> simp [all_dirs]

lemma make_edge_h (x y : Int) :
    make_edge ⟨x, y⟩ ⟨x + 1, y⟩ = ⟨⟨x, y⟩, ⟨x + 1, y⟩⟩ :=
  make_edge_of_canonical ⟨⟨x, y⟩, ⟨x + 1, y⟩⟩ (by simp)

lemma make_edge_v (x y : Int) :
    make_edge ⟨x, y⟩ ⟨x, y + 1⟩ = ⟨⟨x, y⟩, ⟨x, y + 1⟩⟩ :=
  make_edge_of_canonical ⟨⟨x, y⟩, ⟨x, y + 1⟩⟩ (by simp)

/-- The per-cell scan is the fold of `dir_step` over the four directions. -/
lemma cell_edges_eq (cn : List String) (L : Layer) (x y : Int)
    (es : List Edge) :
    cell_edges cn L x y es = all_dirs.foldl (dir_step cn L x y) es := by
  by_cases hs : is_solid cn L x y
  · by_cases hu : is_solid cn L x (y - 1) <;>
      by_cases hd : is_solid cn L x (y + 1) <;>
      by_cases hl : is_solid cn L (x - 1) y <;>
      by_cases hr : is_solid cn L (x + 1) y <;>
      simp [cell_edges, all_dirs, dir_step, dir_cond, dir_edge, hs, hu, hd,
        hl, hr, make_edge_h, make_edge_v]
  · simp [cell_edges, all_dirs, dir_step, dir_cond, hs]

lemma mem_dir_fold {cn : List String} {L : Layer} {x y : Int}
    {ds : List Dir} {es : List Edge} {e : Edge} :
    e ∈ ds.foldl (dir_step cn L x y) es ↔
      e ∈ es ∨ ∃ d ∈ ds, dir_cond cn L x y d = true ∧ e = dir_edge x y d := by
  induction ds generalizing es with
  | nil => simp
  | cons d ds ih =>
    simp only [List.foldl_cons, ih, dir_step]
    split_ifs with hc
    · rw [mem_insert_edge]
      constructor
      · rintro ((h | rfl) | h)
        · exact Or.inl h
        · exact Or.inr ⟨d, by simp, hc, rfl⟩
        · obtain ⟨d', hd', hc', rfl⟩ := h
          exact Or.inr ⟨d', by simp [hd'], hc', rfl⟩
      · rintro (h | ⟨d', hd', hc', rfl⟩)
        · exact Or.inl (Or.inl h)
        · rcases List.mem_cons.mp hd' with rfl | hd'
          · exact Or.inl (Or.inr rfl)
          · exact Or.inr ⟨d', hd', hc', rfl⟩
    · constructor
      · rintro (h | ⟨d', hd', hc', rfl⟩)
        · exact Or.inl h
        · exact Or.inr ⟨d', by simp [hd'], hc', rfl⟩
      · rintro (h | ⟨d', hd', hc', rfl⟩)
        · exact Or.inl h
        · rcases List.mem_cons.mp hd' with rfl | hd'
          · exact absurd hc' hc
          · exact Or.inr ⟨d', hd', hc', rfl⟩

/-- Membership after scanning one cell. -/
lemma mem_cell_edges {cn : List String} {L : Layer} {x y : Int}
    {es : List Edge} {e : Edge} :
    e ∈ cell_edges cn L x y es ↔
      e ∈ es ∨ ∃ d, dir_cond cn L x y d = true ∧ e = dir_edge x y d := by
  rw [cell_edges_eq, mem_dir_fold]
  constructor
  · rintro (h | ⟨d, _, hc, rfl⟩)
    · exact Or.inl h
    · exact Or.inr ⟨d, hc, rfl⟩
  · rintro (h | ⟨d, hc, rfl⟩)
    · exact Or.inl h
    · exact Or.inr ⟨d, mem_all_dirs d, hc, rfl⟩

lemma dir_fold_nodup {cn : List String} {L : Layer} {x y : Int}
    {ds : List Dir} {es : List Edge} (h : es.Nodup) :
    (ds.foldl (dir_step cn L x y) es).Nodup := by
  induction ds generalizing es with
  | nil => exact h
  | cons d ds ih =>
    simp only [List.foldl_cons]
    apply ih
    unfold dir_step
    split_ifs with hc
    · exact insert_edge_nodup h
    · exact h

lemma cell_edges_nodup {cn : List String} {L : Layer} {x y : Int}
    {es : List Edge} (h : es.Nodup) : (cell_edges cn L x y es).Nodup := by
  rw [cell_edges_eq]
  exact dir_fold_nodup h

lemma cell_edges_sub {cn : List String} {L : Layer} {x y : Int}
    {es : List Edge} {e : Edge} (h : e ∈ es) : e ∈ cell_edges cn L x y es :=
  mem_cell_edges.mpr (Or.inl h)

/-- The `(cell, side)` pair that generates a boundary edge is unique: no two
distinct scan events ever insert the same edge. -/
lemma dir_gen_unique {cn : List String} {L : Layer} {x y x' y' : Int}
    {d d' : Dir}
    (h : dir_cond cn L x y d = true) (h' : dir_cond cn L x' y' d' = true)
    (he : dir_edge x y d = dir_edge x' y' d') : x = x' ∧ y = y' ∧ d = d' := by
  cases d <;> cases d' <;>
    simp only [dir_cond, Bool.and_eq_true, Bool.not_eq_true'] at h h' <;>
    simp only [dir_edge, Edge.mk.injEq, IntPoint.mk.injEq] at he <;>
    first
    | exact ⟨by omega, by omega, rfl⟩
    | (exfalso; omega)
    | (exfalso
       obtain ⟨hs, hn⟩ := h
       obtain ⟨hs', hn'⟩ := h'
       first
       | (have e1 : x = x' := by omega
          have e2 : y - 1 = y' := by omega
          rw [e1, e2] at hn
          rw [hn] at hs'
          exact Bool.false_ne_true hs')
       | (have e1 : x = x' := by omega
          have e2 : y + 1 = y' := by omega
          rw [e1, e2] at hn
          rw [hn] at hs'
          exact Bool.false_ne_true hs')
       | (have e1 : x - 1 = x' := by omega
          have e2 : y = y' := by omega
          rw [e1, e2] at hn
          rw [hn] at hs'
          exact Bool.false_ne_true hs')
       | (have e1 : x + 1 = x' := by omega
          have e2 : y = y' := by omega
          rw [e1, e2] at hn
          rw [hn] at hs'
          exact Bool.false_ne_true hs'))

lemma is_solid_bounds {cn : List String} {L : Layer} {x y : Int}
    (h : is_solid cn L x y = true) :
    0 ≤ x ∧ 0 ≤ y ∧ x < L.size.x ∧ y < L.size.y := by
  unfold is_solid at h
  split_ifs at h with hb
  push_neg at hb
  omega

lemma dir_cond_solid {cn : List String} {L : Layer} {x y : Int} {d : Dir}
    (h : dir_cond cn L x y d = true) : is_solid cn L x y = true := by
  cases d <;> simp only [dir_cond, Bool.and_eq_true] at h <;> exact h.1

lemma mem_scan_cells {L : Layer} {c : Int × Int} :
    c ∈ scan_cells L ↔
      0 ≤ c.1 ∧ c.1 < L.size.x ∧ 0 ≤ c.2 ∧ c.2 < L.size.y := by
  simp only [scan_cells, List.mem_flatMap, List.mem_map, List.mem_range]
  constructor
  · rintro ⟨y, hy, x, hx, rfl⟩
    simp only [Int.ofNat_eq_coe]
    omega
  · rintro ⟨h1, h2, h3, h4⟩
    refine ⟨c.2.toNat, by omega, c.1.toNat, by omega, ?_⟩
    rcases c with ⟨cx, cy⟩
    simp only [Int.ofNat_eq_coe, Prod.mk.injEq]
    omega

lemma scan_cells_nodup (L : Layer) : (scan_cells L).Nodup := by
  unfold scan_cells
  rw [List.nodup_flatMap]
  constructor
  · intro y _
    refine List.Nodup.map ?_ (List.nodup_range _)
    intro a b hab
    simpa using congrArg Prod.fst hab
  · refine List.Pairwise.imp ?_ (List.nodup_range _)
    intro y y' hy
    intro c hc hc'
    simp only [List.mem_map, List.mem_range] at hc hc'
    obtain ⟨x, _, rfl⟩ := hc
    obtain ⟨x', _, h⟩ := hc'
    have := congrArg Prod.snd h
    simp only [Int.ofNat_eq_coe] at this
    exact hy (by omega)

lemma foldl_fold_nested {α β γ : Type _} (f : β → α → β) (g : γ → List α)
    (ys : List γ) (b : β) :
    ys.foldl (fun b' y => (g y).foldl f b') b = (ys.flatMap g).foldl f b := by
  induction ys generalizing b with
  | nil => rfl
  | cons y ys ih =>
    simp only [List.flatMap_cons, List.foldl_append, List.foldl_cons, ih]

/-- The scan as a single fold over the scanned cells. -/
lemma collect_edges_eq_fold (cn : List String) (L : Layer) :
    collect_edges cn L =
      (scan_cells L).foldl (fun es c => cell_edges cn L c.1 c.2 es) [] := by
  unfold collect_edges scan_cells
  rw [← foldl_fold_nested]
  simp only [List.foldl_map]

lemma mem_cells_fold {cn : List String} {L : Layer} {cs : List (Int × Int)}
    {es : List Edge} {e : Edge} :
    e ∈ cs.foldl (fun es c => cell_edges cn L c.1 c.2 es) es ↔
      e ∈ es ∨ ∃ c ∈ cs, ∃ d, dir_cond cn L c.1 c.2 d = true ∧
        e = dir_edge c.1 c.2 d := by
  induction cs generalizing es with
  | nil => simp
  | cons c cs ih =>
    simp only [List.foldl_cons, ih, mem_cell_edges]
    constructor
    · rintro ((h | ⟨d, hc, rfl⟩) | ⟨c', hc', d, hd', rfl⟩)
      · exact Or.inl h
      · exact Or.inr ⟨c, by simp, d, hc, rfl⟩
      · exact Or.inr ⟨c', by simp [hc'], d, hd', rfl⟩
    · rintro (h | ⟨c', hc', d, hd', rfl⟩)
      · exact Or.inl (Or.inl h)
      · rcases List.mem_cons.mp hc' with rfl | hc'
        · exact Or.inl (Or.inr ⟨d, hd', rfl⟩)
        · exact Or.inr ⟨c', hc', d, hd', rfl⟩

/-- Membership in the collected edge set: exactly the boundary edges of
solid cells against non-solid (or out-of-range) neighbours. -/
lemma mem_collect_edges {cn : List String} {L : Layer} {e : Edge} :
    e ∈ collect_edges cn L ↔
      ∃ x y d, dir_cond cn L x y d = true ∧ e = dir_edge x y d := by
  rw [collect_edges_eq_fold, mem_cells_fold]
  constructor
  · rintro (h | ⟨c, _, d, hd, rfl⟩)
    · simp at h
    · exact ⟨c.1, c.2, d, hd, rfl⟩
  · rintro ⟨x, y, d, hd, rfl⟩
    have hb := is_solid_bounds (dir_cond_solid hd)
    exact Or.inr ⟨(x, y), mem_scan_cells.mpr (by simp only []; omega), d, hd, rfl⟩

lemma cells_fold_nodup {cn : List String} {L : Layer} {cs : List (Int × Int)}
    {es : List Edge} (h : es.Nodup) :
    (cs.foldl (fun es c => cell_edges cn L c.1 c.2 es) es).Nodup := by
  induction cs generalizing es with
  | nil => exact h
  | cons c cs ih => exact ih (cell_edges_nodup h)

lemma collect_edges_nodup (cn : List String) (L : Layer) :
    (collect_edges cn L).Nodup := by
  rw [collect_edges_eq_fold]
  exact cells_fold_nodup List.nodup_nil

lemma all_dirs_nodup : all_dirs.Nodup := by decide

lemma dir_fold_length {cn : List String} {L : Layer} {x y : Int}
    {ds : List Dir} {es : List Edge} (hnd : ds.Nodup)
    (hfresh : ∀ d ∈ ds, dir_cond cn L x y d = true → dir_edge x y d ∉ es) :
    (ds.foldl (dir_step cn L x y) es).length
      = es.length + ds.countP (fun d => dir_cond cn L x y d) := by
  induction ds generalizing es with
  | nil => simp
  | cons d ds ih =>
    simp only [List.foldl_cons, List.countP_cons]
    rcases List.nodup_cons.mp hnd with ⟨hd_not, hnd'⟩
    by_cases hc : dir_cond cn L x y d = true
    · have hstep : dir_step cn L x y es d = insert_edge es (dir_edge x y d) := by
        unfold dir_step
        rw [if_pos hc]
      have hfresh' : ∀ d' ∈ ds, dir_cond cn L x y d' = true →
          dir_edge x y d' ∉ insert_edge es (dir_edge x y d) := by
        intro d' hd' hc' hmem
        rcases mem_insert_edge.mp hmem with h | h
        · exact hfresh d' (List.mem_cons_of_mem _ hd') hc' h
        · obtain ⟨_, _, hdd⟩ := dir_gen_unique hc' hc h
          exact hd_not (hdd ▸ hd')
      rw [hstep, ih hnd' hfresh',
        insert_edge_length_of_not_mem (hfresh d (by simp) hc), hc]
      simp
      omega
    · have hstep : dir_step cn L x y es d = es := by
        unfold dir_step
        rw [if_neg hc]
      rw [hstep, ih hnd' (fun d' hd' hc' =>
        hfresh d' (List.mem_cons_of_mem _ hd') hc'), if_neg hc]
      omega

lemma cell_edges_length {cn : List String} {L : Layer} {x y : Int}
    {es : List Edge}
    (hfresh : ∀ d, dir_cond cn L x y d = true → dir_edge x y d ∉ es) :
    (cell_edges cn L x y es).length = es.length + cell_side_count cn L x y := by
  rw [cell_edges_eq, cell_side_count]
  exact dir_fold_length all_dirs_nodup (fun d _ => hfresh d)

lemma cells_fold_length {cn : List String} {L : Layer}
    {cs : List (Int × Int)} {es : List Edge} (hnd : cs.Nodup)
    (hfresh : ∀ c ∈ cs, ∀ d, dir_cond cn L c.1 c.2 d = true →
      dir_edge c.1 c.2 d ∉ es) :
    (cs.foldl (fun es c => cell_edges cn L c.1 c.2 es) es).length
      = es.length + (cs.map (fun c => cell_side_count cn L c.1 c.2)).sum := by
  induction cs generalizing es with
  | nil => simp
  | cons c cs ih =>
    simp only [List.foldl_cons, List.map_cons, List.sum_cons]
    rcases List.nodup_cons.mp hnd with ⟨hc_not, hnd'⟩
    have hfresh' : ∀ c' ∈ cs, ∀ d, dir_cond cn L c'.1 c'.2 d = true →
        dir_edge c'.1 c'.2 d ∉ cell_edges cn L c.1 c.2 es := by
      intro c' hc' d' hcond' hmem
      rcases mem_cell_edges.mp hmem with h | ⟨d'', hcond'', heq⟩
      · exact hfresh c' (List.mem_cons_of_mem _ hc') d' hcond' h
      · obtain ⟨hx, hy, _⟩ := dir_gen_unique hcond' hcond'' heq
        apply hc_not
        have hcc : c' = c := Prod.ext hx hy
        exact hcc ▸ hc'
    rw [ih hnd' hfresh', cell_edges_length (fun d hd => hfresh c (by simp) d hd)]
    omega

/-- The collected edge list has exactly one entry per boundary side. -/
lemma collect_edges_length (cn : List String) (L : Layer) :
    (collect_edges cn L).length = side_count cn L := by
  rw [collect_edges_eq_fold, side_count]
  have h := @cells_fold_length cn L (scan_cells L) []
    (scan_cells_nodup L) (fun c _ d _ h => by simp at h)
  simpa using h

/-- Every collected edge separates a solid cell from a non-solid one. -/
lemma collect_edge_sides {cn : List String} {L : Layer} {e : Edge}
    (h : e ∈ collect_edges cn L) :
    is_solid cn L (edge_sides e).1.1 (edge_sides e).1.2 ≠
      is_solid cn L (edge_sides e).2.1 (edge_sides e).2.2 := by
  rcases mem_collect_edges.mp h with ⟨x, y, d, hc, rfl⟩
  cases d <;>
    simp only [dir_cond, Bool.and_eq_true, Bool.not_eq_true'] at hc <;>
    obtain ⟨hs, hn⟩ := hc
  case _ =>
    unfold edge_sides dir_edge
    rw [if_pos rfl]
    show is_solid cn L x (y - 1) ≠ is_solid cn L x y
    rw [hs, hn]
    simp
  case _ =>
    unfold edge_sides dir_edge
    rw [if_pos rfl]
    show is_solid cn L x (y + 1 - 1) ≠ is_solid cn L x (y + 1)
    rw [show y + 1 - 1 = y by omega, hs, hn]
    simp
  case _ =>
    unfold edge_sides dir_edge
    rw [if_neg (by simp)]
    show is_solid cn L (x - 1) y ≠ is_solid cn L x y
    rw [hs, hn]
    simp
  case _ =>
    unfold edge_sides dir_edge
    rw [if_neg (by simp)]
    show is_solid cn L (x + 1 - 1) y ≠ is_solid cn L (x + 1) y
    rw [show x + 1 - 1 = x by omega, hs, hn]
    simp


/-!  Facts about edge erasure and the walking loop. -/

lemma erase_edge_sublist (es : List Edge) (p0 p1 : IntPoint) :
    (erase_edge es p0 p1).Sublist es :=
  List.filter_sublist es

lemma mem_erase_edge {es : List Edge} {p0 p1 : IntPoint} {e : Edge} :
    e ∈ erase_edge es p0 p1 ↔ e ∈ es ∧ e ≠ make_edge p0 p1 := by
  simp [erase_edge]

lemma not_mem_erase_edge (es : List Edge) (p0 p1 : IntPoint) :
    make_edge p0 p1 ∉ erase_edge es p0 p1 := by
  simp [mem_erase_edge]

lemma erase_edge_length_lt {es : List Edge} {p0 p1 : IntPoint}
    (h : make_edge p0 p1 ∈ es) :
    (erase_edge es p0 p1).length < es.length := by
  have hsub := erase_edge_sublist es p0 p1
  refine lt_of_le_of_ne hsub.length_le (fun heq => ?_)
  have hEq := hsub.eq_of_length heq
  rw [← hEq] at h
  exact not_mem_erase_edge es p0 p1 h

lemma next_ok_iff {prev cur : IntPoint} {es : List Edge} {cand : IntPoint} :
    next_ok prev cur es cand = true ↔ cand ≠ prev ∧ make_edge cur cand ∈ es := by
  simp [next_ok]

lemma walk_sublist (adj : IntPoint → List IntPoint) (fuel : Nat) :
    ∀ es start cur prev poly,
      ((walk adj fuel es start cur prev poly).2).Sublist es := by
  induction fuel with
  | zero =>
    intro es start cur prev poly
    rw [walk]
    split_ifs with h1
    · exact List.Sublist.refl es
    · cases hfind : (adj cur).find? (next_ok prev cur es) with
      | none => exact List.Sublist.refl es
      | some next =>
        dsimp only
        split_ifs with h2
        · exact erase_edge_sublist es cur next
        · exact erase_edge_sublist es cur next
  | succ f ih =>
    intro es start cur prev poly
    rw [walk]
    split_ifs with h1
    · exact List.Sublist.refl es
    · cases hfind : (adj cur).find? (next_ok prev cur es) with
      | none => exact List.Sublist.refl es
      | some next =>
        dsimp only
        split_ifs with h2
        · exact erase_edge_sublist es cur next
        · exact (ih _ _ _ _ _).trans (erase_edge_sublist es cur next)

lemma unit_step_symm {p q : IntPoint} (h : unit_step p q) : unit_step q p := by
  unfold unit_step at h ⊢
  omega

lemma unit_step_of_make_edge {cur next : IntPoint}
    (hu : unit_edge (make_edge cur next)) : unit_step cur next := by
  unfold unit_edge at hu
  rcases make_edge_endpoints cur next with ⟨h1, h2⟩ | ⟨h1, h2⟩ <;>
    rw [h1, h2] at hu
  · exact hu
  · exact unit_step_symm hu

lemma collect_edges_unit {cn : List String} {L : Layer} {e : Edge}
    (h : e ∈ collect_edges cn L) : unit_edge e := by
  rcases mem_collect_edges.mp h with ⟨x, y, d, _, rfl⟩
  cases d <;> simp [dir_edge, unit_edge, unit_step]

lemma collect_edges_canonical {cn : List String} {L : Layer} {e : Edge}
    (h : e ∈ collect_edges cn L) : make_edge e.a e.b = e := by
  rcases mem_collect_edges.mp h with ⟨x, y, d, _, rfl⟩
  cases d <;> (apply make_edge_of_canonical; simp [dir_edge])

lemma chain_edges_append_last {l : List IntPoint} {c n : IntPoint}
    (h : l.getLast? = some c) :
    chain_edges (l ++ [n]) = chain_edges l ++ [make_edge c n] := by
  induction l with
  | nil => simp at h
  | cons a l ih =>
    cases l with
    | nil =>
      simp only [List.getLast?_singleton, Option.some.injEq] at h
      subst h
      rfl
    | cons b rest =>
      have h' : (b :: rest).getLast? = some c := by
        rwa [List.getLast?_cons_cons] at h
      have step : chain_edges ((a :: b :: rest) ++ [n])
          = make_edge a b :: chain_edges ((b :: rest) ++ [n]) := rfl
      rw [step, ih h']
      simp [chain_edges]

lemma mem_chain_edges_dropLast {l : List IntPoint} {e : Edge}
    (h : e ∈ chain_edges l.dropLast) : e ∈ chain_edges l := by
  cases hl : l.dropLast with
  | nil => rw [hl] at h; simp [chain_edges] at h
  | cons p t =>
    have hne : l ≠ [] := by
      intro h0
      rw [h0] at hl
      simp at hl
    have hrec : l = l.dropLast ++ [l.getLast hne] := by
      rw [List.dropLast_append_getLast hne]
    have hlast : l.dropLast.getLast? = some (l.dropLast.getLast (by rw [hl]; simp)) :=
      List.getLast?_eq_getLast _ _
    rw [hrec, chain_edges_append_last hlast]
    exact List.mem_append_left _ h

lemma chain_edges_reverse (l : List IntPoint) :
    chain_edges l.reverse = (chain_edges l).reverse := by
  induction l with
  | nil => rfl
  | cons a l ih =>
    cases l with
    | nil => rfl
    | cons b rest =>
      have hlast : (b :: rest).reverse.getLast? = some b := by
        rw [List.getLast?_reverse]
        rfl
      calc chain_edges (a :: b :: rest).reverse
          = chain_edges ((b :: rest).reverse ++ [a]) := by
            simp
        _ = chain_edges (b :: rest).reverse ++ [make_edge b a] :=
            chain_edges_append_last hlast
        _ = (chain_edges (b :: rest)).reverse ++ [make_edge a b] := by
            rw [ih, make_edge_comm]
        _ = (chain_edges (a :: b :: rest)).reverse := by
            simp [chain_edges]

/-- Every edge reconstructed from consecutive vertices of the walked chain is
either an edge of the starting chain or an edge that was consumed from the
working set during this walk (present before, absent after). -/
lemma walk_chain_mem (adj : IntPoint → List IntPoint) (fuel : Nat) :
    ∀ es start cur prev poly, poly.getLast? = some cur →
      ∀ e ∈ chain_edges ((walk adj fuel es start cur prev poly).1),
        e ∈ chain_edges poly ∨
          (e ∈ es ∧ e ∉ (walk adj fuel es start cur prev poly).2) := by
  induction fuel with
  | zero =>
    intro es start cur prev poly hlast e
    rw [walk]
    split_ifs with h1
    · exact fun he => Or.inl he
    · cases hfind : (adj cur).find? (next_ok prev cur es) with
      | none => exact fun he => Or.inl he
      | some next =>
        have hnext : make_edge cur next ∈ es :=
          (next_ok_iff.mp (List.find?_some hfind)).2
        have hchain1 : chain_edges (poly ++ [next])
            = chain_edges poly ++ [make_edge cur next] :=
          chain_edges_append_last hlast
        dsimp only
        split_ifs with h2 <;>
        · intro he
          rw [hchain1] at he
          rcases List.mem_append.mp he with h | h
          · exact Or.inl h
          · rw [List.mem_singleton] at h
            subst h
            exact Or.inr ⟨hnext, not_mem_erase_edge es cur next⟩
  | succ f ih =>
    intro es start cur prev poly hlast e
    rw [walk]
    split_ifs with h1
    · exact fun he => Or.inl he
    · cases hfind : (adj cur).find? (next_ok prev cur es) with
      | none => exact fun he => Or.inl he
      | some next =>
        have hnext : make_edge cur next ∈ es :=
          (next_ok_iff.mp (List.find?_some hfind)).2
        have hchain1 : chain_edges (poly ++ [next])
            = chain_edges poly ++ [make_edge cur next] :=
          chain_edges_append_last hlast
        dsimp only
        split_ifs with h2
        · intro he
          rw [hchain1] at he
          rcases List.mem_append.mp he with h | h
          · exact Or.inl h
          · rw [List.mem_singleton] at h
            subst h
            exact Or.inr ⟨hnext, not_mem_erase_edge es cur next⟩
        · intro he
          have hlast1 : (poly ++ [next]).getLast? = some next := by simp
          rcases ih (erase_edge es cur next) start next cur (poly ++ [next])
              hlast1 e he with h | ⟨hin, hout⟩
          · rw [hchain1] at h
            rcases List.mem_append.mp h with h | h
            · exact Or.inl h
            · rw [List.mem_singleton] at h
              subst h
              refine Or.inr ⟨hnext, fun hm => ?_⟩
              exact not_mem_erase_edge es cur next
                ((walk_sublist adj f _ _ _ _ _).subset hm)
          · exact Or.inr ⟨(mem_erase_edge.mp hin).1, hout⟩

/-- The walked chain extends the starting chain. -/
lemma walk_poly_prefix (adj : IntPoint → List IntPoint) (fuel : Nat) :
    ∀ es start cur prev poly,
      ∃ ext, (walk adj fuel es start cur prev poly).1 = poly ++ ext := by
  induction fuel with
  | zero =>
    intro es start cur prev poly
    rw [walk]
    split_ifs with h1
    · exact ⟨[], by simp⟩
    · cases hfind : (adj cur).find? (next_ok prev cur es) with
      | none => exact ⟨[], by simp⟩
      | some next =>
        dsimp only
        split_ifs with h2 <;> exact ⟨[next], rfl⟩
  | succ f ih =>
    intro es start cur prev poly
    rw [walk]
    split_ifs with h1
    · exact ⟨[], by simp⟩
    · cases hfind : (adj cur).find? (next_ok prev cur es) with
      | none => exact ⟨[], by simp⟩
      | some next =>
        dsimp only
        split_ifs with h2
        · exact ⟨[next], rfl⟩
        · obtain ⟨ext, hext⟩ :=
            ih (erase_edge es cur next) start next cur (poly ++ [next])
          exact ⟨next :: ext, by rw [hext]; simp⟩

/-- The guard bounds the walked chain length. -/
lemma walk_poly_length (adj : IntPoint → List IntPoint) (fuel : Nat) :
    ∀ es start cur prev poly,
      ((walk adj fuel es start cur prev poly).1).length
        ≤ max (poly.length + 1) 100001 := by
  induction fuel with
  | zero =>
    intro es start cur prev poly
    rw [walk]
    split_ifs with h1
    · dsimp only
      omega
    · cases hfind : (adj cur).find? (next_ok prev cur es) with
      | none =>
        dsimp only
        omega
      | some next =>
        dsimp only
        split_ifs with h2 <;>
        · simp only [List.length_append, List.length_singleton]
          omega
  | succ f ih =>
    intro es start cur prev poly
    rw [walk]
    split_ifs with h1
    · dsimp only
      omega
    · cases hfind : (adj cur).find? (next_ok prev cur es) with
      | none =>
        dsimp only
        omega
      | some next =>
        dsimp only
        split_ifs with h2
        · simp only [List.length_append, List.length_singleton]
          omega
        · have h := ih (erase_edge es cur next) start next cur (poly ++ [next])
          simp only [List.length_append, List.length_singleton] at h h2 ⊢
          omega

/-- Walking preserves unit steps: every vertex appended is one unit from the
previous one, because the consumed edge comes from the (unit-edge) set. -/
lemma walk_chain_unit (adj : IntPoint → List IntPoint) (fuel : Nat) :
    ∀ es start cur prev poly, poly.getLast? = some cur →
      List.Chain' unit_step poly →
      (∀ e ∈ es, unit_edge e) →
      List.Chain' unit_step ((walk adj fuel es start cur prev poly).1) := by
  induction fuel with
  | zero =>
    intro es start cur prev poly hlast hchain hunit
    rw [walk]
    split_ifs with h1
    · exact hchain
    · cases hfind : (adj cur).find? (next_ok prev cur es) with
      | none => exact hchain
      | some next =>
        have hnext : make_edge cur next ∈ es :=
          (next_ok_iff.mp (List.find?_some hfind)).2
        have hstep : unit_step cur next :=
          unit_step_of_make_edge (hunit _ hnext)
        have hchain1 : List.Chain' unit_step (poly ++ [next]) := by
          rw [List.chain'_append]
          exact ⟨hchain, List.chain'_singleton next, by
            intro x hx y hy
            rw [hlast] at hx
            rw [List.head?_cons] at hy
            simp only [Option.mem_def, Option.some.injEq] at hx hy
            rw [← hx, ← hy]
            exact hstep⟩
        dsimp only
        split_ifs with h2 <;> exact hchain1
  | succ f ih =>
    intro es start cur prev poly hlast hchain hunit
    rw [walk]
    split_ifs with h1
    · exact hchain
    · cases hfind : (adj cur).find? (next_ok prev cur es) with
      | none => exact hchain
      | some next =>
        have hnext : make_edge cur next ∈ es :=
          (next_ok_iff.mp (List.find?_some hfind)).2
        have hstep : unit_step cur next :=
          unit_step_of_make_edge (hunit _ hnext)
        have hchain1 : List.Chain' unit_step (poly ++ [next]) := by
          rw [List.chain'_append]
          exact ⟨hchain, List.chain'_singleton next, by
            intro x hx y hy
            rw [hlast] at hx
            rw [List.head?_cons] at hy
            simp only [Option.mem_def, Option.some.injEq] at hx hy
            rw [← hx, ← hy]
            exact hstep⟩
        dsimp only
        split_ifs with h2
        · exact hchain1
        · exact ih (erase_edge es cur next) start next cur (poly ++ [next])
            (by simp) hchain1
            (fun e he => hunit e ((erase_edge_sublist es cur next).subset he))

/-- Any fuel of at least `es.length` makes `walk` insensitive to the fuel:
the walking loop terminates within `es.length` iterations because every
iteration consumes one edge. -/
lemma walk_fuel_irrelevant (adj : IntPoint → List IntPoint) :
    ∀ n f g es start cur prev poly, es.length = n → n ≤ f → n ≤ g →
      walk adj f es start cur prev poly = walk adj g es start cur prev poly := by
  intro n
  induction n using Nat.strong_induction_on with
  | _ n ih =>
    intro f g es start cur prev poly hn hf hg
    rw [walk]
    conv_rhs => rw [walk]
    split_ifs with h1
    · rfl
    · cases hfind : (adj cur).find? (next_ok prev cur es) with
      | none => rfl
      | some next =>
        dsimp only
        split_ifs with h2
        · rfl
        · have hmem : make_edge cur next ∈ es :=
            (next_ok_iff.mp (List.find?_some hfind)).2
          have hpos : 0 < es.length :=
            List.length_pos.mpr (fun h0 => by subst h0; simp at hmem)
          have hlt : (erase_edge es cur next).length < es.length :=
            erase_edge_length_lt hmem
          cases f with
          | zero => exfalso; omega
          | succ fp =>
            cases g with
            | zero => exfalso; omega
            | succ gp =>
              dsimp only
              exact ih (erase_edge es cur next).length (by omega) fp gp _
                start next cur _ rfl (by omega) (by omega)

/-- Any fuel of at least `es.length` makes the selection loop insensitive to
the fuel, provided every working edge is canonical (as all collected edges
are): each selection removes at least the selected edge. -/
lemma walk_loops_fuel_irrelevant (cn : List String) (L : Layer) (scale : ℚ)
    (adj : IntPoint → List IntPoint) :
    ∀ n f g es loops, es.length = n → n ≤ f → n ≤ g →
      (∀ e ∈ es, make_edge e.a e.b = e) →
      walk_loops cn L scale adj f es loops
        = walk_loops cn L scale adj g es loops := by
  intro n
  induction n using Nat.strong_induction_on with
  | _ n ih =>
    intro f g es loops hn hf hg hcanon
    cases es with
    | nil => cases f <;> cases g <;> rfl
    | cons e rest =>
      have hpos : 0 < (e :: rest).length := by simp
      cases f with
      | zero => exfalso; omega
      | succ fp =>
        cases g with
        | zero => exfalso; omega
        | succ gp =>
          rw [walk_loops]
          conv_rhs => rw [walk_loops]
          have hmem : make_edge e.a e.b ∈ e :: rest := by
            rw [hcanon e (by simp)]
            simp
          have hlt1 : (erase_edge (e :: rest) e.a e.b).length
              < (e :: rest).length :=
            erase_edge_length_lt hmem
          have hsub : ((walk adj (erase_edge (e :: rest) e.a e.b).length
              (erase_edge (e :: rest) e.a e.b) e.a e.b e.a [e.a, e.b]).2).Sublist
              (erase_edge (e :: rest) e.a e.b) :=
            walk_sublist adj _ _ _ _ _ _
          have hlen : ((walk adj (erase_edge (e :: rest) e.a e.b).length
              (erase_edge (e :: rest) e.a e.b) e.a e.b e.a [e.a, e.b]).2).length
              < n := by
            have := hsub.length_le
            omega
          exact ih _ hlen fp gp _ _ rfl (by omega) (by omega)
            (fun e' he' => hcanon e'
              (((hsub.trans (erase_edge_sublist _ _ _)).subset) he'))

lemma mem_chain_trim_loop {poly : List IntPoint} {e : Edge}
    (h : e ∈ chain_edges (trim_loop poly)) : e ∈ chain_edges poly := by
  unfold trim_loop at h
  split_ifs at h
  · exact mem_chain_edges_dropLast h
  · exact h

lemma mem_chain_fix_winding {cn : List String} {L : Layer} {scale : ℚ}
    {poly : List IntPoint} {e : Edge}
    (h : e ∈ chain_edges (fix_winding cn L scale (trim_loop poly))) :
    e ∈ chain_edges poly := by
  unfold fix_winding at h
  split_ifs at h
  · exact mem_chain_trim_loop h
  · rw [chain_edges_reverse, List.mem_reverse] at h
    exact mem_chain_trim_loop h

lemma chain'_trim_loop {poly : List IntPoint}
    (h : List.Chain' unit_step poly) :
    List.Chain' unit_step (trim_loop poly) := by
  unfold trim_loop
  split_ifs
  · exact h.prefix (List.dropLast_prefix poly)
  · exact h

lemma chain'_fix_winding {cn : List String} {L : Layer} {scale : ℚ}
    {poly : List IntPoint} (h : List.Chain' unit_step poly) :
    List.Chain' unit_step (fix_winding cn L scale poly) := by
  unfold fix_winding
  split_ifs
  · exact h
  · rw [List.chain'_reverse]
    exact h.imp (fun _ _ hs => unit_step_symm hs)

lemma length_fix_winding (cn : List String) (L : Layer) (scale : ℚ)
    (poly : List IntPoint) :
    (fix_winding cn L scale poly).length = poly.length := by
  unfold fix_winding
  split_ifs <;> simp

lemma length_trim_loop_le (poly : List IntPoint) :
    (trim_loop poly).length ≤ poly.length := by
  unfold trim_loop
  split_ifs <;> simp [List.length_dropLast]

/-- Invariants of the selection loop, by induction over its fuel: every kept
chain reconstructs only edges of the original edge set, no two kept chains
share an edge, every kept chain takes unit-length axis-aligned steps, and no
kept chain exceeds the guard bound. -/
lemma walk_loops_invariant (cn : List String) (L : Layer) (scale : ℚ)
    (adj : IntPoint → List IntPoint) (es₀ : List Edge) :
    ∀ fuel es loops,
      (∀ e ∈ es, e ∈ es₀) →
      (∀ e ∈ es, make_edge e.a e.b = e) →
      (∀ e ∈ es, unit_edge e) →
      (∀ l ∈ loops, ∀ e ∈ chain_edges l, e ∈ es₀ ∧ e ∉ es) →
      loops.Pairwise (fun l1 l2 => ∀ e, e ∈ chain_edges l1 → e ∉ chain_edges l2) →
      (∀ l ∈ loops, List.Chain' unit_step l ∧ l.length ≤ 100001) →
      (∀ l ∈ walk_loops cn L scale adj fuel es loops,
          (∀ e ∈ chain_edges l, e ∈ es₀) ∧ List.Chain' unit_step l ∧
          l.length ≤ 100001) ∧
        (walk_loops cn L scale adj fuel es loops).Pairwise
          (fun l1 l2 => ∀ e, e ∈ chain_edges l1 → e ∉ chain_edges l2) := by
  intro fuel
  induction fuel with
  | zero =>
    intro es loops _ _ _ hloops hpw hok
    exact ⟨fun l hl => ⟨fun e he => (hloops l hl e he).1, (hok l hl).1,
      (hok l hl).2⟩, hpw⟩
  | succ f ih =>
    intro es loops hsub hcanon hunit hloops hpw hok
    cases es with
    | nil =>
      exact ⟨fun l hl => ⟨fun e he => (hloops l hl e he).1, (hok l hl).1,
        (hok l hl).2⟩, hpw⟩
    | cons e rest =>
      rw [walk_loops]
      set es1 := erase_edge (e :: rest) e.a e.b with hes1
      set r := walk adj es1.length es1 e.a e.b e.a [e.a, e.b] with hr
      set poly := trim_loop r.1 with hpoly
      -- facts about this iteration
      have hr2_sub1 : (r.2).Sublist es1 := walk_sublist adj _ _ _ _ _ _
      have hr2_sub : ∀ e' ∈ r.2, e' ∈ e :: rest :=
        fun e' he' => (erase_edge_sublist _ _ _).subset (hr2_sub1.subset he')
      have hstart_mem : make_edge e.a e.b ∈ e :: rest := by
        rw [hcanon e (by simp)]
        simp
      have hchain_start : chain_edges [e.a, e.b] = [make_edge e.a e.b] := rfl
      -- every chain edge of the walked chain lies in the original set and
      -- is consumed
      have hwalked : ∀ e' ∈ chain_edges r.1, e' ∈ es₀ ∧ e' ∉ r.2 := by
        intro e' he'
        rcases walk_chain_mem adj es1.length es1 e.a e.b e.a [e.a, e.b]
            rfl e' he' with h | ⟨h1, h2⟩
        · rw [hchain_start, List.mem_singleton] at h
          subst h
          refine ⟨hsub _ hstart_mem, fun hm => ?_⟩
          exact not_mem_erase_edge (e :: rest) e.a e.b (hr2_sub1.subset hm)
        · exact ⟨hsub _ ((erase_edge_sublist _ _ _).subset h1), h2⟩
      have hwalked_es : ∀ e' ∈ chain_edges r.1, e' ∈ e :: rest := by
        intro e' he'
        rcases walk_chain_mem adj es1.length es1 e.a e.b e.a [e.a, e.b]
            rfl e' he' with h | ⟨h1, _⟩
        · rw [hchain_start, List.mem_singleton] at h
          subst h
          exact hstart_mem
        · exact (erase_edge_sublist _ _ _).subset h1
      have hwalked_chain : List.Chain' unit_step r.1 := by
        refine walk_chain_unit adj es1.length es1 e.a e.b e.a [e.a, e.b] rfl ?_
          (fun e' he' => hunit e' ((erase_edge_sublist _ _ _).subset he'))
        refine List.chain'_pair.mpr ?_
        exact unit_step_of_make_edge
          ((hcanon e (by simp)).symm ▸ hunit e (by simp))
      have hwalked_len : r.1.length ≤ 100001 := by
        have := walk_poly_length adj es1.length es1 e.a e.b e.a [e.a, e.b]
        simpa using this
      -- the kept chain, when the length filter passes
      have hkept : ∀ e' ∈ chain_edges (fix_winding cn L scale poly),
          e' ∈ es₀ ∧ e' ∉ r.2 :=
        fun e' he' => hwalked e' (mem_chain_fix_winding he')
      have hkept_es : ∀ e' ∈ chain_edges (fix_winding cn L scale poly),
          e' ∈ e :: rest :=
        fun e' he' => hwalked_es e' (mem_chain_fix_winding he')
      have hkept_chain : List.Chain' unit_step (fix_winding cn L scale poly) :=
        chain'_fix_winding (chain'_trim_loop hwalked_chain)
      have hkept_len : (fix_winding cn L scale poly).length ≤ 100001 := by
        rw [length_fix_winding]
        exact le_trans (length_trim_loop_le r.1) hwalked_len
      -- apply the induction hypothesis to the next state
      refine ih r.2 (if 3 ≤ poly.length then
          loops ++ [fix_winding cn L scale poly] else loops)
        (fun e' he' => hsub e' (hr2_sub e' he'))
        (fun e' he' => hcanon e' (hr2_sub e' he'))
        (fun e' he' => hunit e' (hr2_sub e' he'))
        ?_ ?_ ?_
      · split_ifs with hge
        · intro l hl
          rcases List.mem_append.mp hl with hl | hl
          · intro e' he'
            refine ⟨(hloops l hl e' he').1, fun hm => ?_⟩
            exact (hloops l hl e' he').2 (hr2_sub e' hm)
          · rw [List.mem_singleton] at hl
            subst hl
            exact fun e' he' => hkept e' he'
        · intro l hl e' he'
          refine ⟨(hloops l hl e' he').1, fun hm => ?_⟩
          exact (hloops l hl e' he').2 (hr2_sub e' hm)
      · split_ifs with hge
        · rw [List.pairwise_append]
          refine ⟨hpw, List.pairwise_singleton _ _, ?_⟩
          intro l hl l' hl'
          rw [List.mem_singleton] at hl'
          subst hl'
          intro e' hel hem
          exact (hloops l hl e' hel).2 (hkept_es e' hem)
        · exact hpw
      · split_ifs with hge
        · intro l hl
          rcases List.mem_append.mp hl with hl | hl
          · exact hok l hl
          · rw [List.mem_singleton] at hl
            subst hl
            exact ⟨hkept_chain, hkept_len⟩
        · exact hok

/-!  The winding probe, characterised. -/

/-- The modelled square root is exact on squares. -/
lemma ratSqrt_sq (q : ℚ) : ratSqrt (q * q) = |q| := by
  unfold ratSqrt
  rw [Rat.mul_self_num, Rat.mul_self_den]
  have hden : ((q.den * q.den : ℕ) : ℤ) = (q.den : ℤ) * (q.den : ℤ) := by
    push_cast
    ring
  rw [hden]
  have h1 : q.num * q.num * ((q.den : ℤ) * (q.den : ℤ))
      = (q.num * (q.den : ℤ)) * (q.num * (q.den : ℤ)) := by ring
  rw [h1, Int.sqrt_eq]
  have habs : |q| = ((q.num.natAbs : ℚ)) / (q.den : ℚ) := by
    rw [Rat.abs_def, Rat.divInt_eq_div]
    push_cast
    rw [Int.cast_natAbs, Int.cast_abs]
  rw [habs]
  have hd : (q.den : ℚ) ≠ 0 := by
    exact_mod_cast q.den_nz
  push_cast [Int.natAbs_mul]
  field_simp
  rw [Int.cast_natAbs, Int.cast_abs]
  ring

/-- A degenerate (zero-length) leading pair is skipped by the probe loop. -/
lemma solid_on_right_aux_skip (cn : List String) (L : Layer) (scale : ℚ)
    (p : IntPoint) (rest : List (IntPoint × IntPoint)) :
    solid_on_right_aux cn L scale ((p, p) :: rest)
      = solid_on_right_aux cn L scale rest := by
  simp only [solid_on_right_aux]
  rw [if_pos (by simp)]

/-- For a unit axis-aligned leading edge, the probe loop samples exactly the
cell given by the spec's probe rule: quarter-cell offset from the midpoint
along the rightward normal, floor-divided by the cell size. -/
lemma solid_on_right_aux_probe (cn : List String) (L : Layer) (scale : ℚ)
    (a b : IntPoint) (rest : List (IntPoint × IntPoint))
    (hlen : 1 / 10000 ≤ (L.cell_size : ℚ) * scale)
    (hunit : (b.x - a.x) ^ 2 + (b.y - a.y) ^ 2 = 1) :
    solid_on_right_aux cn L scale ((a, b) :: rest)
      = is_solid cn L (probe_cell_spec a b).x (probe_cell_spec a b).y := by
  have hc0 : (0 : ℚ) < (L.cell_size : ℚ) * scale :=
    lt_of_lt_of_le (by norm_num) hlen
  have hcne : ((L.cell_size : ℚ)) * scale ≠ 0 := ne_of_gt hc0
  have hne : ¬(b.x - a.x = 0 ∧ b.y - a.y = 0) := by
    rintro ⟨h1, h2⟩
    rw [h1, h2] at hunit
    norm_num at hunit
  have hunitQ : ((b.x : ℚ) - a.x) ^ 2 + ((b.y : ℚ) - a.y) ^ 2 = 1 := by
    exact_mod_cast congrArg (fun n : ℤ => (n : ℚ)) hunit
  have hsq : ((b.x : ℚ) * (L.cell_size : ℚ) * scale
        - (a.x : ℚ) * (L.cell_size : ℚ) * scale)
      * ((b.x : ℚ) * (L.cell_size : ℚ) * scale
        - (a.x : ℚ) * (L.cell_size : ℚ) * scale)
      + ((b.y : ℚ) * (L.cell_size : ℚ) * scale
        - (a.y : ℚ) * (L.cell_size : ℚ) * scale)
      * ((b.y : ℚ) * (L.cell_size : ℚ) * scale
        - (a.y : ℚ) * (L.cell_size : ℚ) * scale)
      = ((L.cell_size : ℚ) * scale) * ((L.cell_size : ℚ) * scale) := by
    have expand : ((b.x : ℚ) * (L.cell_size : ℚ) * scale
          - (a.x : ℚ) * (L.cell_size : ℚ) * scale)
        * ((b.x : ℚ) * (L.cell_size : ℚ) * scale
          - (a.x : ℚ) * (L.cell_size : ℚ) * scale)
        + ((b.y : ℚ) * (L.cell_size : ℚ) * scale
          - (a.y : ℚ) * (L.cell_size : ℚ) * scale)
        * ((b.y : ℚ) * (L.cell_size : ℚ) * scale
          - (a.y : ℚ) * (L.cell_size : ℚ) * scale)
        = (((b.x : ℚ) - a.x) ^ 2 + ((b.y : ℚ) - a.y) ^ 2)
          * (((L.cell_size : ℚ) * scale) * ((L.cell_size : ℚ) * scale)) := by
      ring
    rw [expand, hunitQ, one_mul]
  simp only [solid_on_right_aux]
  rw [if_neg hne, hsq, ratSqrt_sq, abs_of_pos hc0, if_neg (not_lt.mpr hlen)]
  have hgx : ((a.x : ℚ) * (L.cell_size : ℚ) * scale
        + (b.x : ℚ) * (L.cell_size : ℚ) * scale) / 2
      + -(((b.y : ℚ) * (L.cell_size : ℚ) * scale
          - (a.y : ℚ) * (L.cell_size : ℚ) * scale)
        / ((L.cell_size : ℚ) * scale))
        * ((L.cell_size : ℚ) * scale / 4)
      = (((a.x : ℚ) + (b.x : ℚ)) / 2
        + (-((b.y : ℚ) - (a.y : ℚ))) / 4) * ((L.cell_size : ℚ) * scale) := by
    field_simp
    ring
  have hgy : ((a.y : ℚ) * (L.cell_size : ℚ) * scale
        + (b.y : ℚ) * (L.cell_size : ℚ) * scale) / 2
      + ((b.x : ℚ) * (L.cell_size : ℚ) * scale
          - (a.x : ℚ) * (L.cell_size : ℚ) * scale)
        / ((L.cell_size : ℚ) * scale)
        * ((L.cell_size : ℚ) * scale / 4)
      = (((a.y : ℚ) + (b.y : ℚ)) / 2
        + ((b.x : ℚ) - (a.x : ℚ)) / 4) * ((L.cell_size : ℚ) * scale) := by
    field_simp
    ring
  rw [hgx, hgy, mul_div_cancel_right₀ _ hcne, mul_div_cancel_right₀ _ hcne]
  rfl

/-- The winding test on a chain whose first edge is a unit axis-aligned step
is exactly the occupancy of the spec's probe cell for that edge. -/
lemma loop_has_solid_on_right_probe (cn : List String) (L : Layer) (scale : ℚ)
    (a b : IntPoint) (rest : List IntPoint)
    (hlen : 1 / 10000 ≤ (L.cell_size : ℚ) * scale)
    (hunit : (b.x - a.x) ^ 2 + (b.y - a.y) ^ 2 = 1) :
    loop_has_solid_on_right cn L scale (a :: b :: rest)
      = is_solid cn L (probe_cell_spec a b).x (probe_cell_spec a b).y := by
  unfold loop_has_solid_on_right
  have hrot : (a :: b :: rest).rotate 1 = (b :: rest) ++ [a] := by
    rw [List.rotate_cons_succ, List.rotate_zero]
  rw [hrot]
  have hzip : (a :: b :: rest).zip ((b :: rest) ++ [a])
      = (a, b) :: ((b :: rest).zip (rest ++ [a])) := rfl
  rw [hzip]
  exact solid_on_right_aux_probe cn L scale a b _ hlen hunit

/-!  Layer-level consequences of the walking invariants. -/

lemma layer_loops_props (cn : List String) (L : Layer) (scale : ℚ) :
    (∀ l ∈ layer_loops cn L scale,
        (∀ e ∈ chain_edges l, e ∈ collect_edges cn L) ∧
        List.Chain' unit_step l ∧ l.length ≤ 100001) ∧
      (layer_loops cn L scale).Pairwise
        (fun l1 l2 => ∀ e, e ∈ chain_edges l1 → e ∉ chain_edges l2) := by
  unfold layer_loops
  exact walk_loops_invariant cn L scale (adj_of (collect_edges cn L))
    (collect_edges cn L) (collect_edges cn L).length (collect_edges cn L) []
    (fun e he => he)
    (fun e he => collect_edges_canonical he)
    (fun e he => collect_edges_unit he)
    (by simp)
    (by simp)
    (by simp)

/-!  Concrete evaluation of the 3×3 scenario. -/

/-- The winding test accepts the walked orientation of the 3×3 block's loop:
its first edge runs rightward along the top, and the probe cell below it,
cell `(0, 0)`, is solid. -/
lemma ex3_winding : loop_has_solid_on_right exCN exL3 1 ex3Loop = true := by
  have h := loop_has_solid_on_right_probe exCN exL3 1 ⟨0, 0⟩ ⟨1, 0⟩
    [⟨2, 0⟩, ⟨3, 0⟩, ⟨3, 1⟩, ⟨3, 2⟩, ⟨3, 3⟩, ⟨2, 3⟩, ⟨1, 3⟩, ⟨0, 3⟩, ⟨0, 2⟩, ⟨0, 1⟩]
    (by norm_num [exL3]) (by norm_num)
  rw [show ex3Loop = ⟨0, 0⟩ :: ⟨1, 0⟩ ::
    [⟨2, 0⟩, ⟨3, 0⟩, ⟨3, 1⟩, ⟨3, 2⟩, ⟨3, 3⟩, ⟨2, 3⟩, ⟨1, 3⟩, ⟨0, 3⟩, ⟨0, 2⟩, ⟨0, 1⟩]
    from rfl, h]
  have hp : probe_cell_spec ⟨0, 0⟩ ⟨1, 0⟩ = ⟨0, 0⟩ := by
    unfold probe_cell_spec
    have h1 : ⌊((0 : ℚ) + 1) / 2 + (-((0 : ℚ) - 0)) / 4⌋ = 0 := by
      apply Int.floor_eq_iff.mpr
      norm_num
    have h2 : ⌊((0 : ℚ) + 0) / 2 + ((1 : ℚ) - 0) / 4⌋ = 0 := by
      apply Int.floor_eq_iff.mpr
      norm_num
    norm_num at h1 h2 ⊢
  rw [hp]
  rfl

/-- The full extraction on the all-solid 3×3 grid: one loop, `ex3Loop`. -/
lemma ex3_layer_loops : layer_loops exCN exL3 1 = [ex3Loop] := by
  have h1 : layer_loops exCN exL3 1 = [fix_winding exCN exL3 1 ex3Loop] := by
    rfl
  have h2 : fix_winding exCN exL3 1 ex3Loop = ex3Loop := by
    unfold fix_winding
    rw [ex3_winding]
    simp
  rw [h1, h2]

lemma ex3_mem : ex3Loop ∈ layer_loops exCN exL3 1 := by
  rw [ex3_layer_loops]
  simp

/-!  The claims. -/

/-- C2 counterexample: on a 3×3 solid block the extraction does not emit a
4-vertex loop — the emitted loop keeps every intermediate unit-step corner
(the collinear-vertex reduction in the source is commented out). -/
theorem C2_counterexample : ¬ ∀ l ∈ layer_loops exCN exL3 1, l.length = 4 := by
  intro h
  have h12 := h ex3Loop ex3_mem
  simp [ex3Loop] at h12

/-- C2 (amended): a solid 3×3 block of cells with empty surroundings yields
exactly one closed loop, of 12 vertices — one per unit boundary step — whose
vertices include the four block corners (0,0), (3,0), (3,3), (0,3). -/
theorem C2_scenario_block : layer_loops exCN exL3 1 = [ex3Loop] ∧
    (layer_loops exCN exL3 1).length = 1 ∧ ex3Loop.length = 12 ∧
    (⟨0, 0⟩ : IntPoint) ∈ ex3Loop ∧ (⟨3, 0⟩ : IntPoint) ∈ ex3Loop ∧
    (⟨3, 3⟩ : IntPoint) ∈ ex3Loop ∧ (⟨0, 3⟩ : IntPoint) ∈ ex3Loop := by
  refine ⟨ex3_layer_loops, ?_, by decide, by decide, by decide, by decide,
    by decide⟩
  rw [ex3_layer_loops]
  rfl

/-- C3: after the collection scan the edge set has exactly one entry per unit
boundary segment: its size is the number of solid-cell sides with a non-solid
or out-of-range neighbour, it is duplicate-free, membership is exactly the
boundary-side condition, and every member borders one solid and one
non-solid (or out-of-range) cell. -/
theorem C3_edge_collection (cn : List String) (L : Layer) :
    (collect_edges cn L).length = side_count cn L ∧
    (collect_edges cn L).Nodup ∧
    (∀ e, e ∈ collect_edges cn L ↔
        ∃ x y d, dir_cond cn L x y d = true ∧ e = dir_edge x y d) ∧
    ∀ e ∈ collect_edges cn L,
      is_solid cn L (edge_sides e).1.1 (edge_sides e).1.2 ≠
        is_solid cn L (edge_sides e).2.1 (edge_sides e).2.2 :=
  ⟨collect_edges_length cn L, collect_edges_nodup cn L,
    fun _ => mem_collect_edges, fun _ he => collect_edge_sides he⟩

/-- C3 witness: the top edge of the 3×3 block is collected and separates the
empty out-of-range cell above from the solid cell below. -/
theorem C3_edge_collection_witness :
    (⟨⟨0, 0⟩, ⟨1, 0⟩⟩ : Edge) ∈ collect_edges exCN exL3 ∧
      is_solid exCN exL3 (edge_sides ⟨⟨0, 0⟩, ⟨1, 0⟩⟩).1.1
          (edge_sides ⟨⟨0, 0⟩, ⟨1, 0⟩⟩).1.2 ≠
        is_solid exCN exL3 (edge_sides ⟨⟨0, 0⟩, ⟨1, 0⟩⟩).2.1
          (edge_sides ⟨⟨0, 0⟩, ⟨1, 0⟩⟩).2.2 :=
  ⟨by decide, (C3_edge_collection exCN exL3).2.2.2 _ (by decide)⟩

/-- C4: `is_solid` is false outside the layer's grid bounds, and on in-bounds
cells is true exactly when the cell's tag name is a member of the
caller-supplied collision-name list; as a plain function of its arguments it
is pure and deterministic. -/
theorem C4_is_solid_spec (cn : List String) (L : Layer) (x y : Int) :
    is_solid cn L x y = true ↔
      0 ≤ x ∧ 0 ≤ y ∧ x < L.size.x ∧ y < L.size.y ∧ L.tag_name x y ∈ cn := by
  unfold is_solid
  split_ifs with hb
  · simp only [Bool.false_eq_true, false_iff]
    rintro ⟨h1, h2, h3, h4, -⟩
    omega
  · push_neg at hb
    simp only [decide_eq_true_eq]
    constructor
    · intro h
      exact ⟨by omega, by omega, by omega, by omega, h⟩
    · exact fun h => h.2.2.2.2

/-- C6: extraction terminates. Each selection and each walking step removes a
present edge and strictly shrinks the working edge set; the guard bounds any
single walk; both loops compute the same result under any fuel of at least
the edge-set size (so the fuelled model is the loops' total function); and
every emitted loop respects the guard bound. -/
theorem C6_termination (cn : List String) (L : Layer) (scale : ℚ)
    (adj : IntPoint → List IntPoint) :
    (∀ (es : List Edge) (e : Edge), e ∈ es → make_edge e.a e.b = e →
        (erase_edge es e.a e.b).length < es.length) ∧
    (∀ fuel es start cur prev poly,
        ((walk adj fuel es start cur prev poly).2).Sublist es ∧
        ((walk adj fuel es start cur prev poly).1).length
          ≤ max (poly.length + 1) 100001) ∧
    (∀ f g es start cur prev poly, es.length ≤ f → es.length ≤ g →
        walk adj f es start cur prev poly = walk adj g es start cur prev poly) ∧
    (∀ f g es loops, es.length ≤ f → es.length ≤ g →
        (∀ e ∈ es, make_edge e.a e.b = e) →
        walk_loops cn L scale adj f es loops
          = walk_loops cn L scale adj g es loops) ∧
    (∀ l ∈ layer_loops cn L scale, l.length ≤ 100001) := by
  refine ⟨?_, ?_, ?_, ?_, ?_⟩
  · intro es e he hc
    exact erase_edge_length_lt (by rw [hc]; exact he)
  · intro fuel es start cur prev poly
    exact ⟨walk_sublist adj fuel es start cur prev poly,
      walk_poly_length adj fuel es start cur prev poly⟩
  · intro f g es start cur prev poly hf hg
    exact walk_fuel_irrelevant adj es.length f g es start cur prev poly rfl hf hg
  · intro f g es loops hf hg hcanon
    exact walk_loops_fuel_irrelevant cn L scale adj es.length f g es loops
      rfl hf hg hcanon
  · intro l hl
    exact ((layer_loops_props cn L scale).1 l hl).2.2

/-- C6 witness: on the 3×3 block's edge set, erasing the first collected edge
shrinks the set, and the emitted loop respects the guard bound. -/
theorem C6_termination_witness :
    ((⟨⟨0, 0⟩, ⟨1, 0⟩⟩ : Edge) ∈ collect_edges exCN exL3 ∧
      make_edge (⟨0, 0⟩ : IntPoint) ⟨1, 0⟩ = (⟨⟨0, 0⟩, ⟨1, 0⟩⟩ : Edge)) ∧
    (erase_edge (collect_edges exCN exL3) ⟨0, 0⟩ ⟨1, 0⟩).length
        < (collect_edges exCN exL3).length ∧
    (ex3Loop ∈ layer_loops exCN exL3 1 ∧ ex3Loop.length ≤ 100001) :=
  ⟨⟨by decide, by decide⟩,
    (C6_termination exCN exL3 1 (fun _ => [])).1 (collect_edges exCN exL3)
      ⟨⟨0, 0⟩, ⟨1, 0⟩⟩ (by decide) (by decide),
    ex3_mem,
    (C6_termination exCN exL3 1 (fun _ => [])).2.2.2.2 ex3Loop ex3_mem⟩

/-- C7: for a loop whose leading edge is a unit axis-aligned step (as all
walked loops' edges are), the winding resolver's answer is exactly the
occupancy of the probe cell — midpoint of the first non-degenerate edge,
offset a quarter cell along its rightward normal, floor-divided by the cell
size — and the kept loop is unchanged when that cell is solid and reversed
otherwise; degenerate (zero-length) leading pairs are skipped. -/
theorem C7_winding_resolution (cn : List String) (L : Layer) (scale : ℚ)
    (a b : IntPoint) (rest : List IntPoint)
    (hlen : 1 / 10000 ≤ (L.cell_size : ℚ) * scale)
    (hunit : (b.x - a.x) ^ 2 + (b.y - a.y) ^ 2 = 1) :
    loop_has_solid_on_right cn L scale (a :: b :: rest)
        = is_solid cn L (probe_cell_spec a b).x (probe_cell_spec a b).y ∧
    fix_winding cn L scale (a :: b :: rest)
        = (if is_solid cn L (probe_cell_spec a b).x (probe_cell_spec a b).y
          then a :: b :: rest else (a :: b :: rest).reverse) ∧
    ∀ (p : IntPoint) (tail : List (IntPoint × IntPoint)),
      solid_on_right_aux cn L scale ((p, p) :: tail)
        = solid_on_right_aux cn L scale tail := by
  refine ⟨loop_has_solid_on_right_probe cn L scale a b rest hlen hunit, ?_,
    fun p tail => solid_on_right_aux_skip cn L scale p tail⟩
  unfold fix_winding
  rw [loop_has_solid_on_right_probe cn L scale a b rest hlen hunit]

/-- C7 witness: the top-left edge of the 3×3 block, probed at cell (0,0). -/
theorem C7_winding_resolution_witness :
    ((1 : ℚ) / 10000 ≤ ((exL3.cell_size : ℚ)) * 1 ∧
      (((⟨1, 0⟩ : IntPoint).x - (⟨0, 0⟩ : IntPoint).x) ^ 2 +
        ((⟨1, 0⟩ : IntPoint).y - (⟨0, 0⟩ : IntPoint).y) ^ 2 = 1)) ∧
    loop_has_solid_on_right exCN exL3 1 [⟨0, 0⟩, ⟨1, 0⟩]
      = is_solid exCN exL3 (probe_cell_spec ⟨0, 0⟩ ⟨1, 0⟩).x
          (probe_cell_spec ⟨0, 0⟩ ⟨1, 0⟩).y :=
  ⟨⟨by norm_num [exL3], by norm_num⟩,
    (C7_winding_resolution exCN exL3 1 ⟨0, 0⟩ ⟨1, 0⟩ []
      (by norm_num [exL3]) (by norm_num)).1⟩

/-- C8: edge construction is order-insensitive and canonical: the same
endpoints give the same `Edge` either way round, with the lexicographically
smaller endpoint stored first. -/
theorem C8_make_edge_canonical (p q : IntPoint) :
    make_edge p q = make_edge q p ∧
      ((make_edge p q).a.x < (make_edge p q).b.x ∨
        ((make_edge p q).a.x = (make_edge p q).b.x ∧
          (make_edge p q).a.y ≤ (make_edge p q).b.y)) := by
  refine ⟨make_edge_comm p q, ?_⟩
  unfold make_edge
  split_ifs with h <;> simp <;> omega

/-- C9: every pair of consecutive vertices of an emitted chain (wrap
excluded) differs by exactly one unit in exactly one coordinate. -/
theorem C9_unit_steps (cn : List String) (L : Layer) (scale : ℚ) :
    ∀ l ∈ layer_loops cn L scale, List.Chain' unit_step l :=
  fun l hl => ((layer_loops_props cn L scale).1 l hl).2.1

/-- C9 witness: the 3×3 block's emitted loop steps one unit at a time. -/
theorem C9_unit_steps_witness :
    ex3Loop ∈ layer_loops exCN exL3 1 ∧ List.Chain' unit_step ex3Loop :=
  ⟨ex3_mem, C9_unit_steps exCN exL3 1 ex3Loop ex3_mem⟩

/-- C10: each emitted chain carries one surface material per vertex, all with
friction 0.1 and restitution 0.1. -/
theorem C10_materials (cn : List String) (L : Layer) (scale : ℚ) :
    ∀ ch ∈ emit_layer cn L scale,
      ch.materials.length = ch.points.length ∧
      ∀ m ∈ ch.materials, m.friction = 1 / 10 ∧ m.restitution = 1 / 10 := by
  intro ch hch
  rcases List.mem_map.mp hch with ⟨loop, _, rfl⟩
  unfold emit_chain
  constructor
  · simp
  · intro m hm
    simp only [List.mem_map] at hm
    rcases hm with ⟨_, _, rfl⟩
    exact ⟨rfl, rfl⟩

/-- C10 witness: the 3×3 block's chain has 12 vertices and 12 materials with
friction and restitution 0.1. -/
theorem C10_materials_witness :
    emit_chain exL3 1 ex3Loop ∈ emit_layer exCN exL3 1 ∧
      (emit_chain exL3 1 ex3Loop).materials.length
        = (emit_chain exL3 1 ex3Loop).points.length ∧
      ∀ m ∈ (emit_chain exL3 1 ex3Loop).materials,
        m.friction = 1 / 10 ∧ m.restitution = 1 / 10 :=
  ⟨by rw [emit_layer, ex3_layer_loops]; simp,
    C10_materials exCN exL3 1 (emit_chain exL3 1 ex3Loop)
      (by rw [emit_layer, ex3_layer_loops]; simp)⟩

/-- C5 (supporting, partial): the non-wrapping consecutive-vertex edges of
every emitted loop form a subset of the collected edge set, and no such edge
occurs in two different emitted loops. (The wrapping edge of a chain cut off
by the runaway guard is not covered: such a chain is emitted without closing,
which is the divergence recorded for this claim.) -/
theorem C5_chain_closure_partial (cn : List String) (L : Layer) (scale : ℚ) :
    (layer_loops cn L scale).Forall
        (fun l => (chain_edges l).Forall (fun e => e ∈ collect_edges cn L)) ∧
      (layer_loops cn L scale).Pairwise
        (fun l1 l2 => (chain_edges l1).Disjoint (chain_edges l2)) := by
  have h := layer_loops_props cn L scale
  constructor
  · rw [List.forall_iff_forall_mem]
    intro l hl
    rw [List.forall_iff_forall_mem]
    intro e he
    exact (h.1 l hl).1 e he
  · exact h.2.imp (fun hd => fun e he1 he2 => hd e he1 he2)

/-- C1 (code bug, demonstration): the selection loop's keep test checks only
the vertex count, not closure. On the three-edge path below the walk gets
stuck (no candidate next edge) with four vertices and the open chain is
passed to winding resolution and emitted: its last vertex differs from its
first. A grid-reachable instance needs the vertex-count guard to trip, i.e. a
boundary loop of more than 100001 edges. -/
theorem C1_open_chain_emitted :
    walk_loops exCN exL3 1
        (adj_of [⟨⟨0, 0⟩, ⟨1, 0⟩⟩, ⟨⟨1, 0⟩, ⟨1, 1⟩⟩, ⟨⟨1, 1⟩, ⟨2, 1⟩⟩]) 3
        [⟨⟨0, 0⟩, ⟨1, 0⟩⟩, ⟨⟨1, 0⟩, ⟨1, 1⟩⟩, ⟨⟨1, 1⟩, ⟨2, 1⟩⟩] []
      = [[⟨0, 0⟩, ⟨1, 0⟩, ⟨1, 1⟩, ⟨2, 1⟩]] ∧
    ([⟨0, 0⟩, ⟨1, 0⟩, ⟨1, 1⟩, ⟨2, 1⟩] : List IntPoint).getLast?
      ≠ ([⟨0, 0⟩, ⟨1, 0⟩, ⟨1, 1⟩, ⟨2, 1⟩] : List IntPoint).head? := by
  constructor
  · have h1 : walk_loops exCN exL3 1
        (adj_of [⟨⟨0, 0⟩, ⟨1, 0⟩⟩, ⟨⟨1, 0⟩, ⟨1, 1⟩⟩, ⟨⟨1, 1⟩, ⟨2, 1⟩⟩]) 3
        [⟨⟨0, 0⟩, ⟨1, 0⟩⟩, ⟨⟨1, 0⟩, ⟨1, 1⟩⟩, ⟨⟨1, 1⟩, ⟨2, 1⟩⟩] []
        = [fix_winding exCN exL3 1 [⟨0, 0⟩, ⟨1, 0⟩, ⟨1, 1⟩, ⟨2, 1⟩]] := by
      rfl
    have hw : loop_has_solid_on_right exCN exL3 1
        [⟨0, 0⟩, ⟨1, 0⟩, ⟨1, 1⟩, ⟨2, 1⟩] = true := by
      have h := loop_has_solid_on_right_probe exCN exL3 1 ⟨0, 0⟩ ⟨1, 0⟩
        [⟨1, 1⟩, ⟨2, 1⟩] (by norm_num [exL3]) (by norm_num)
      rw [show ([⟨0, 0⟩, ⟨1, 0⟩, ⟨1, 1⟩, ⟨2, 1⟩] : List IntPoint)
        = ⟨0, 0⟩ :: ⟨1, 0⟩ :: [⟨1, 1⟩, ⟨2, 1⟩] from rfl, h]
      have hp : probe_cell_spec ⟨0, 0⟩ ⟨1, 0⟩ = ⟨0, 0⟩ := by
        unfold probe_cell_spec
        have h1 : ⌊((0 : ℚ) + 1) / 2 + (-((0 : ℚ) - 0)) / 4⌋ = 0 := by
          apply Int.floor_eq_iff.mpr
          norm_num
        have h2 : ⌊((0 : ℚ) + 0) / 2 + ((1 : ℚ) - 0) / 4⌋ = 0 := by
          apply Int.floor_eq_iff.mpr
          norm_num
        norm_num at h1 h2 ⊢
      rw [hp]
      rfl
    have h2 : fix_winding exCN exL3 1 [⟨0, 0⟩, ⟨1, 0⟩, ⟨1, 1⟩, ⟨2, 1⟩]
        = [⟨0, 0⟩, ⟨1, 0⟩, ⟨1, 1⟩, ⟨2, 1⟩] := by
      unfold fix_winding
      rw [hw]
      simp
    rw [h1, h2]
  · decide
